import Mathlib

set_option autoImplicit false
set_option maxRecDepth 8192

/-!
Shallow embedding of the l-store relational database (src/lstore) and proofs
about the claims of its specification.  Python dictionaries are modelled as
association lists with unique keys, Python lists as Lean lists, and mutation
as explicit state passing.  Machine-level 8-byte little-endian signed
encoding (`int.to_bytes(8, 'little', signed=True)` followed by
`int.from_bytes(..., signed=True)`) is modelled by the two's-complement wrap
`wrap64`; on the int64 range it is the identity, exactly as the byte
round-trip is.  Python raises OverflowError outside that range, so theorems
that speak about stored values carry an explicit int64-range hypothesis.
-/

namespace LStore

/-- Lookup in an association list, modelling Python `d[k]` / `k in d`. -/
def dget {κ α : Type} [DecidableEq κ] : List (κ × α) → κ → Option α
  | [], _ => none
  | (k0, v0) :: rest, k => if k0 = k then some v0 else dget rest k

/-- Update or insert a binding, modelling Python `d[k] = v` (dict keys are
unique; an existing binding is replaced in place, a new one appended). -/
def dset {κ α : Type} [DecidableEq κ] : List (κ × α) → κ → α → List (κ × α)
  | [], k, v => [(k, v)]
  | (k0, v0) :: rest, k, v =>
      if k0 = k then (k, v) :: rest else (k0, v0) :: dset rest k v

/-- Remove a binding, modelling Python `del d[k]`. -/
def derase {κ α : Type} [DecidableEq κ] : List (κ × α) → κ → List (κ × α)
  | [], _ => []
  | (k0, v0) :: rest, k => if k0 = k then rest else (k0, v0) :: derase rest k

/-- Two's-complement wrap of an integer to the signed 64-bit range, modelling
the store-then-load byte round-trip of page.py (8-byte little-endian signed).
On the range [-2^63, 2^63) it is the identity. -/
def wrap64 (v : Int) : Int := (v + 2 ^ 63) % 2 ^ 64 - 2 ^ 63


/-! ### Page (src/lstore/page.py)

A page is a 4096-byte slab holding up to 512 slots of 8 bytes.  We model the
byte array as a list of 512 slot values (fresh pages read as 0, matching
`bytearray(4096)`), together with the filled-slot counter `num_records`.
The thread locks of the source are no-ops in this sequential model. -/

structure Page where
  num_records : Nat
  data : List Int
  deriving Repr, DecidableEq

/-- Model of `Page.__init__`: zeroed 4096-byte slab, no records. -/
def Page.new : Page := ⟨0, List.replicate 512 0⟩

/-- Model of `Page.has_capacity`. -/
def Page.has_capacity (p : Page) : Bool := p.num_records < 512

/-- Model of `Page.write`: append-only write of the 8-byte signed encoding of
`value` at slot `num_records`; returns `false` (page unchanged) when full. -/
def Page.write (p : Page) (value : Int) : Bool × Page :=
  if p.has_capacity then
    (true, ⟨p.num_records + 1, p.data.set p.num_records (wrap64 value)⟩)
  else
    (false, p)

/-- Model of `Page.read`: decode the 8 bytes at the slot offset (Python reads
of never-written slots return 0, the zero-fill of the slab). -/
def Page.read (p : Page) (slot : Nat) : Int := p.data.getD slot 0

/-- Model of the in-place base-slot overwrite performed by `Query.update`
(`page.data[offset:offset+8] = new_value.to_bytes(...)`): the slot content
changes, `num_records` does not. -/
def Page.setSlot (p : Page) (slot : Nat) (value : Int) : Page :=
  ⟨p.num_records, p.data.set slot (wrap64 value)⟩

/-- Apply a sequence of `Page.write`s (results discarded, as the insert path
of table.py does). -/
def Page.applyWrites (p : Page) : List Int → Page
  | [] => p
  | v :: vs => ((p.write v).2).applyWrites vs

/-- Well-formedness of a page as constructed in memory: the slab has 512
slots and the filled count never exceeds 512. -/
def Page.wf (p : Page) : Bool := p.num_records ≤ 512 && p.data.length = 512


/-! ### Lock and LockManager (src/lstore/lock.py)

A record lock carries a set of shared-holder transaction ids and at most one
exclusive holder.  The manager keys per-record locks by record identifier and
keeps a per-transaction ledger for bulk release.  The record identifier used
by transaction.py is the f-string `"{table_name}:{key}"`; we model it as the
pair (table name, key), which carries the same information. -/

abbrev RecordId := String × Int

inductive LockType where
  | shared
  | exclusive
  deriving Repr, DecidableEq

structure Lock where
  shared_holders : Finset Nat
  exclusive_holder : Option Nat
  deriving DecidableEq

/-- Model of `Lock.__init__`: no holders. -/
def Lock.new : Lock := ⟨∅, none⟩

/-- Model of `Lock.can_grant_shared`: no exclusive holder, or the exclusive
holder is the requester. -/
def Lock.can_grant_shared (l : Lock) (tid : Nat) : Bool :=
  l.exclusive_holder = none ∨ l.exclusive_holder = some tid

/-- Model of `Lock.can_grant_exclusive`, branch for branch: requester already
holds exclusive; some other exclusive holder refuses; empty shared set
grants; a singleton shared set containing the requester grants (upgrade);
anything else refuses. -/
def Lock.can_grant_exclusive (l : Lock) (tid : Nat) : Bool :=
  if l.exclusive_holder = some tid then true
  else if l.exclusive_holder ≠ none then false
  else if l.shared_holders.card = 0 then true
  else if l.shared_holders.card = 1 ∧ tid ∈ l.shared_holders then true
  else false

/-- Model of `Lock.acquire_shared`. -/
def Lock.acquire_shared (l : Lock) (tid : Nat) : Bool × Lock :=
  if l.can_grant_shared tid then
    (true, { l with shared_holders := insert tid l.shared_holders })
  else
    (false, l)

/-- Model of `Lock.acquire_exclusive`: on grant the requester is discarded
from the shared set (upgrade) and becomes the exclusive holder. -/
def Lock.acquire_exclusive (l : Lock) (tid : Nat) : Bool × Lock :=
  if l.can_grant_exclusive tid then
    (true, ⟨l.shared_holders.erase tid, some tid⟩)
  else
    (false, l)

/-- Model of `Lock.release`: drop the transaction from the shared set and
clear the exclusive holder when it is this transaction. -/
def Lock.release (l : Lock) (tid : Nat) : Lock :=
  ⟨l.shared_holders.erase tid,
    if l.exclusive_holder = some tid then none else l.exclusive_holder⟩

structure LockManager where
  locks : List (RecordId × Lock)
  transaction_locks : List (Nat × List (RecordId × LockType))

/-- Model of `LockManager.__init__`. -/
def LockManager.new : LockManager := ⟨[], []⟩

/-- Model of `LockManager.acquire_shared`: `_get_lock` creates the record's
lock on demand; on grant a `(record_id, SHARED)` entry is appended to the
transaction's ledger. -/
def LockManager.acquire_shared (lm : LockManager) (tid : Nat) (rid : RecordId) :
    Bool × LockManager :=
  let l := (dget lm.locks rid).getD Lock.new
  let res := l.acquire_shared tid
  let locks' := dset lm.locks rid res.2
  if res.1 then
    let entries := (dget lm.transaction_locks tid).getD []
    (true, ⟨locks',
      dset lm.transaction_locks tid (entries ++ [(rid, LockType.shared)])⟩)
  else
    (false, ⟨locks', lm.transaction_locks⟩)

/-- Model of `LockManager.acquire_exclusive`: on grant any existing ledger
entries for the record are removed before the `(record_id, EXCLUSIVE)` entry
is appended. -/
def LockManager.acquire_exclusive (lm : LockManager) (tid : Nat) (rid : RecordId) :
    Bool × LockManager :=
  let l := (dget lm.locks rid).getD Lock.new
  let res := l.acquire_exclusive tid
  let locks' := dset lm.locks rid res.2
  if res.1 then
    let entries := (dget lm.transaction_locks tid).getD []
    let entries' := entries.filter (fun e => e.1 ≠ rid)
    (true, ⟨locks',
      dset lm.transaction_locks tid (entries' ++ [(rid, LockType.exclusive)])⟩)
  else
    (false, ⟨locks', lm.transaction_locks⟩)

/-- Model of `LockManager.release_all`: walk the transaction's ledger,
release every listed record lock, then delete the ledger entry. -/
def LockManager.release_all (lm : LockManager) (tid : Nat) : LockManager :=
  match dget lm.transaction_locks tid with
  | none => lm
  | some entries =>
      let rids := entries.map Prod.fst
      ⟨lm.locks.map (fun p => if p.1 ∈ rids then (p.1, p.2.release tid) else p),
        derase lm.transaction_locks tid⟩


/-! ### Index (src/lstore/index.py wrapped by sharedDS.ThreadSafeIndex)

The B+ tree of index.py is an imperative pointer structure (leaves carry
`next` pointers for range scans), which a shallow functional embedding
represents through the sequence of `(value, rid)` pairs its leaves hold in
left-to-right order — the observable content the spec declares as the
index's abstract contract.  `insert_non_full` places a new pair in a leaf
before the first pair of key ≥ value (`while keys[idx][0] < key: idx += 1`),
which on the flattened leaf sequence is exactly `idxInsert`; `locate`
returns the first matching rid, `locate_range` the rids with value in
[begin, end] in leaf order.  ThreadSafeIndex only wraps the calls in a
reentrant lock, a no-op here. -/

abbrev PKIndex := List (Int × Nat)

/-- Leaf-sequence model of `BPlusTree.insert`: the pair goes in front of the
first pair whose key is not smaller. -/
def idxInsert : PKIndex → Int → Nat → PKIndex
  | [], v, rid => [(v, rid)]
  | (k, r) :: rest, v, rid =>
      if k < v then (k, r) :: idxInsert rest v rid else (v, rid) :: (k, r) :: rest

/-- Leaf-sequence model of `BPlusTree.locate` composed with
`Index.locate`'s `result[0] if result else None`. -/
def idxLocate : PKIndex → Int → Option Nat
  | [], _ => none
  | (k, r) :: rest, v => if k = v then some r else idxLocate rest v

/-- Leaf-sequence model of `BPlusTree.locate_range`. -/
def idxLocateRange (idx : PKIndex) (lo hi : Int) : List Nat :=
  (idx.filter (fun p => lo ≤ p.1 ∧ p.1 ≤ hi)).map Prod.snd

/-! ### Table (src/lstore/table.py) -/

/-- Model of the `Record` class of table.py: projected-out columns are
Python `None`, hence `Option Int` entries. -/
structure Record where
  rid : Nat
  key : Int
  columns : List (Option Int)
  deriving Repr, DecidableEq

/-- Model of the `Table` class.  `index` is the primary-key tree: table.py
creates exactly one index, on the key column, in `__init__`
(`self.index.create_index(self.key)`), and the query paths never create
another, so `Index.indices[c]` is `None` for every other column. -/
structure Table where
  name : String
  key : Nat
  num_columns : Nat
  page_directory : List (Nat × List (Nat × Nat))
  index : PKIndex
  base_page : List (List Page)
  tail_page : List (List Page)
  rid_counter : Nat
  version_chain : List (Nat × List (List (Option (Nat × Nat))))
  deriving Repr, DecidableEq

/-- Model of `Table.__init__`: one empty page per column for base and tail,
rid counter 0, empty directory, chain, and key index (`create_index` on an
empty page directory builds an empty tree). -/
def Table.new (name : String) (num_columns : Nat) (key : Nat) : Table :=
  { name := name, key := key, num_columns := num_columns,
    page_directory := [], index := [],
    base_page := List.replicate num_columns [Page.new],
    tail_page := List.replicate num_columns [Page.new],
    rid_counter := 0, version_chain := [] }

/-- Model of `Index.locate` as reached through `table.index`: only the key
column has a tree (`indices[c] is None` returns `None` otherwise). -/
def tableLocate (t : Table) (column : Nat) (value : Int) : Option Nat :=
  if column = t.key then idxLocate t.index value else none

/-- Shared page-append step of table.py's insert loop and query.py's update
loop: if the current (last) page of the column is full, append a fresh page;
write the value into the last page; report `(page_index, record_offset)`
with `page_index = len(pages) - 1` and
`record_offset = pages[-1].num_records - 1` (both read after the write,
exactly as the source computes them). -/
def appendValue (pages : List Page) (v : Int) : List Page × Nat × Nat :=
  let current := pages.getD (pages.length - 1) Page.new
  let pages1 := if current.has_capacity then pages else pages ++ [Page.new]
  let written := ((pages1.getD (pages1.length - 1) Page.new).write v).2
  let pages2 := pages1.set (pages1.length - 1) written
  (pages2, pages1.length - 1, written.num_records - 1)

/-- The per-column loop of `Table.insert_row` (`for i, value in
enumerate(columns)`), walking the value list and the per-column base-page
lists in parallel; it returns the new base pages together with the recorded
`page_positions`.  (The source pre-fills `page_positions` with
`[None] * num_columns`; for the well-formed calls the claims quantify over,
`len(columns) = num_columns`, where every position is filled and the two
representations coincide.) -/
def writeVals : List Int → List (List Page) → List (List Page) × List (Nat × Nat)
  | [], rest => (rest, [])
  | _ :: _, [] => ([], [])
  | v :: vs, col :: cols =>
      let a := appendValue col v
      let r := writeVals vs cols
      (a.1 :: r.1, (a.2.1, a.2.2) :: r.2)

/-- Model of `Table.insert_row`: allocate `rid_counter + 1`, append each
column value to that column's base pages, install the page-directory entry,
insert the key value into the primary-key index, return the rid.  The
source has no duplicate-key check and no `None` return. -/
def Table.insert_row (t : Table) (columns : List Int) : Nat × Table :=
  let rid := t.rid_counter + 1
  let w := writeVals columns t.base_page
  let pd' := dset t.page_directory rid w.2
  let pk := columns.getD t.key 0
  let idx' := idxInsert t.index pk rid
  (rid,
    { t with
      rid_counter := rid
      base_page := w.1
      page_directory := pd'
      index := idx' })

/-- Model of `Table.read_column`: read a base-page slot. -/
def Table.read_column (t : Table) (col_idx page_idx slot_idx : Nat) : Int :=
  ((t.base_page.getD col_idx []).getD page_idx Page.new).read slot_idx

/-! ### Query (src/lstore/query.py)

Queries are stateless over a table; mutating ones return the new table.
The source's `try/except` wrappers translate Python runtime errors
(malformed arity, out-of-range int64 values) into `False`/`[]`; the pure
model totalises those partial accesses with `getD` defaults instead, and
the theorems below carry the well-formedness hypotheses under which the two
agree (full-arity argument lists, int64-range values, consistent table
state). -/

namespace Query

/-- Model of `Query.delete`: locate the rid by primary key, drop the
page-directory entry; `False` when the key is unknown or the record is
dead. -/
def delete (t : Table) (primary_key : Int) : Bool × Table :=
  match idxLocate t.index primary_key with
  | none => (false, t)
  | some rid =>
      match dget t.page_directory rid with
      | none => (false, t)
      | some _ => (true, { t with page_directory := derase t.page_directory rid })

/-- Model of `Query.insert`: call `insert_row` and report success.  Since
`insert_row` always returns a rid (it has no rejection path), the `rid is
not None` test of the source always passes. -/
def insert (t : Table) (columns : List Int) : Bool × Table :=
  let r := t.insert_row columns
  (true, r.2)

/-- The projection loop of `Query.select` (`for col_idx, (page_idx,
slot_idx) in enumerate(locations)`), reading base slots for mask-selected
columns (Python integer truthiness: any non-zero mask entry projects) and
emitting `None` otherwise. -/
def readProjected (t : Table) : List (Nat × Nat) → List Nat → Nat → List (Option Int)
  | [], _, _ => []
  | loc :: locs, proj, i =>
      (if proj.getD i 0 ≠ 0 then some (t.read_column i loc.1 loc.2) else none)
        :: readProjected t locs proj (i + 1)

/-- Model of `Query.select`: locate the rid via the index, validate it
against the page directory, read the projected base slots; `[]` on any
miss. -/
def select (t : Table) (search_key : Int) (search_key_index : Nat)
    (projected_columns_index : List Nat) : List Record :=
  match tableLocate t search_key_index search_key with
  | none => []
  | some rid =>
      match dget t.page_directory rid with
      | none => []
      | some locations =>
          [⟨rid, search_key, readProjected t locations projected_columns_index 0⟩]

/-- The per-column read of `Query.select_version`'s loop body for a
projected column, after `actual_version` has been resolved: version 0 reads
the base slot from the copied page-directory entry; otherwise the chosen
version entry's location (when present for this column) selects a tail
slot, else the base slot.  An out-of-range chain index or an absent/empty
chain entry falls back to base exactly as the source's
`if vc_copy and vc_copy[col_idx] is not None` does (an empty Python list is
falsy). -/
def codeVersionValue (t : Table) (rid : Nat) (pd_copy : List (Nat × Nat))
    (actual_version : Int) (i : Nat) : Int :=
  if actual_version = 0 then
    t.read_column i (pd_copy.getD i (0, 0)).1 (pd_copy.getD i (0, 0)).2
  else
    match ((dget t.version_chain rid).getD [])[(-actual_version - 1).toNat]? with
    | some entry =>
        match entry.getD i none with
        | some loc => ((t.tail_page.getD i []).getD loc.1 Page.new).read loc.2
        | none =>
            t.read_column i (pd_copy.getD i (0, 0)).1 (pd_copy.getD i (0, 0)).2
    | none => t.read_column i (pd_copy.getD i (0, 0)).1 (pd_copy.getD i (0, 0)).2

/-- The projection loop of `Query.select_version` (`for col_idx,
is_projected in enumerate(projected_columns_index)`; note the source tests
`is_projected == 1` here, not truthiness). -/
def readVersionedCols (t : Table) (rid : Nat) (pd_copy : List (Nat × Nat))
    (actual_version : Int) : List Nat → Nat → List (Option Int)
  | [], _ => []
  | p :: rest, i =>
      (if p = 1 then some (codeVersionValue t rid pd_copy actual_version i) else none)
        :: readVersionedCols t rid pd_copy actual_version rest (i + 1)

/-- Model of `Query.select_version`.  A miss (unknown key, or rid absent
from the page directory) returns Python `None`, modelled as `none` — not
the empty list.  The resolution of `actual_version` follows the source: a
missing or empty chain resets to 0; a chain shorter than `-rv` clamps
`version_idx` to the last entry and re-encodes
`actual_version = -(version_idx + 1)`. -/
def select_version (t : Table) (search_key : Int) (search_key_index : Nat)
    (projected_columns_index : List Nat) (relative_version : Int) :
    Option (List Record) :=
  match tableLocate t search_key_index search_key with
  | none => none
  | some rid =>
      match dget t.page_directory rid with
      | none => none
      | some pd_copy =>
          let chain := (dget t.version_chain rid).getD []
          let actual_version : Int :=
            if relative_version < 0 then
              if chain.length = 0 then 0
              else
                let version_idx := (-relative_version - 1).toNat
                if chain.length ≤ version_idx then -(chain.length : Int)
                else relative_version
            else relative_version
          some [⟨rid, search_key,
            readVersionedCols t rid pd_copy actual_version
              projected_columns_index 0⟩]

/-- The per-column loop of `Query.update` (`for col_idx, new_value in
enumerate(columns)`), walking the new-value list, the record's base
locations, and the per-column base/tail page lists in parallel: a `None`
entry leaves the column alone; a value first appends the current base value
to the column's tail pages, then overwrites the base slot in place. -/
def updateCols : List (Option Int) → List (Nat × Nat) → List (List Page) →
    List (List Page) →
    List (List Page) × List (List Page) × List (Option (Nat × Nat))
  | v :: vs, loc :: locs, bcol :: brest, tcol :: trest =>
      let r := updateCols vs locs brest trest
      match v with
      | none => (bcol :: r.1, tcol :: r.2.1, none :: r.2.2)
      | some nv =>
          let a := appendValue tcol ((bcol.getD loc.1 Page.new).read loc.2)
          let bcol' := bcol.set loc.1 ((bcol.getD loc.1 Page.new).setSlot loc.2 nv)
          (bcol' :: r.1, a.1 :: r.2.1, some (a.2.1, a.2.2) :: r.2.2)
  | _, _, base, tail => (base, tail, [])

/-- Model of `Query.update`: locate the rid and its base locations; refuse a
primary-key rewrite whose new value already has an index entry (unless it
equals the current key); write tail copies and overwrite base slots; prepend
the tail-location vector to the version chain.  The primary-key index is
never touched. -/
def update (t : Table) (primary_key : Int) (columns : List (Option Int)) :
    Bool × Table :=
  match idxLocate t.index primary_key with
  | none => (false, t)
  | some rid =>
      match dget t.page_directory rid with
      | none => (false, t)
      | some old_locations =>
          let keyCollision :=
            match columns.getD t.key none with
            | some new_pk =>
                if new_pk ≠ primary_key then (idxLocate t.index new_pk).isSome
                else false
            | none => false
          if keyCollision then (false, t)
          else
            let u := updateCols columns old_locations t.base_page t.tail_page
            let chain := (dget t.version_chain rid).getD []
            (true,
              { t with
                base_page := u.1
                tail_page := u.2.1
                version_chain := dset t.version_chain rid (u.2.2 :: chain) })

end Query

/-! ### Database persistence (src/lstore/db.py), rid-counter aspect

`Database.close` serialises pages (`num_records` plus the raw slab bytes),
the page directory, and the version chains; `Database.open` reads them back
unchanged and then (a) sets `rid_counter` to the maximum key of the loaded
page directory — `max(page_directory.keys())` — leaving the fresh table's 0
when the directory is empty, and (b) rebuilds the primary-key index from
the page directory (`drop_index` then `create_index`).  The byte round-trip
is lossless for the model's already-wrapped slot values, so a close/open
cycle is the identity on pages, directory, and chain. -/

/-- Model of `Index.create_index` on the key column: scan the page
directory in order and insert each record's key value. -/
def createIndexFromPD (t : Table) : PKIndex :=
  t.page_directory.foldl
    (fun idx e =>
      let loc := e.2.getD t.key (0, 0)
      idxInsert idx (t.read_column t.key loc.1 loc.2) e.1)
    []

/-- Model of a `close()` / `open()` cycle on one table: data survives
byte-identically; `rid_counter` is recomputed as the maximum page-directory
key (`Database.load_page_directory`), and the key index is rebuilt. -/
def Table.reload (t : Table) : Table :=
  let t1 := { t with
    rid_counter :=
      if t.page_directory.isEmpty then 0
      else (t.page_directory.map Prod.fst).foldl max 0 }
  { t1 with index := createIndexFromPD t1 }


/-! ### Well-formedness of a table state

The in-memory invariants that hold for every table produced by the public
API: column lists match the arity and are never empty, every page is a
well-formed 512-slot slab, and every page-directory entry carries one
in-range base location per column.  They are phrased as a Bool so concrete
witnesses can discharge them by evaluation. -/

/-- Well-formedness of one column's page list. -/
def colWF (col : List Page) : Bool := !col.isEmpty && col.all Page.wf

/-- In-range check for a page-directory entry's positions against the base
pages, column by column. -/
def posValid (base : List (List Page)) : List (Nat × Nat) → Nat → Bool
  | [], _ => true
  | loc :: locs, j =>
      decide (loc.1 < (base.getD j []).length) && decide (loc.2 < 512) &&
        posValid base locs (j + 1)

/-- Well-formedness of a table state. -/
def Table.wfB (t : Table) : Bool :=
  decide (t.base_page.length = t.num_columns) &&
  decide (t.tail_page.length = t.num_columns) &&
  t.base_page.all colWF &&
  t.tail_page.all colWF &&
  t.page_directory.all
    (fun e => decide (e.2.length = t.num_columns) && posValid t.base_page e.2 0)

/-! ### Specification-side definition for the select_version claim

`specVersionValue` restates, in the words of the specification, the value
that `select_version` must produce for a projected column: resolve
`k = -relative_version - 1`, clamp to the oldest available version when the
chain is shorter, read the tail slot the chosen version entry records for
the column when it has one, fall back to the base slot otherwise; version 0
(or an empty chain) reads the base slot from the page directory.  It is
compared against the code-side `Query.select_version`. -/
def specVersionValue (t : Table) (rid : Nat) (pd_copy : List (Nat × Nat))
    (rv : Int) (c : Nat) : Int :=
  if rv = 0 ∨ (dget t.version_chain rid).getD [] = [] then
    t.read_column c (pd_copy.getD c (0, 0)).1 (pd_copy.getD c (0, 0)).2
  else
    match (((dget t.version_chain rid).getD []).getD
        (min (-rv - 1).toNat
          (((dget t.version_chain rid).getD []).length - 1)) []).getD c none with
    | some loc => ((t.tail_page.getD c []).getD loc.1 Page.new).read loc.2
    | none => t.read_column c (pd_copy.getD c (0, 0)).1 (pd_copy.getD c (0, 0)).2

/-- Specification-side column list for select_version: projected columns (a
mask entry 1) carry `specVersionValue`, the rest Python `None`. -/
def specVersionCols (t : Table) (rid : Nat) (pd_copy : List (Nat × Nat))
    (rv : Int) : List Nat → Nat → List (Option Int)
  | [], _ => []
  | p :: rest, i =>
      (if p = 1 then some (specVersionValue t rid pd_copy rv i) else none)
        :: specVersionCols t rid pd_copy rv rest (i + 1)

/-! ### Transaction (src/lstore/transaction.py)

A transaction is an ordered list of operations on a table.  The source
stores bound methods and dispatches on the method's name string
(`'select' in query_name`, then elif-chains for insert/update/delete/sum);
the operations the claims quantify over are modelled as an explicit datatype
covering the insert/update/delete/select/select_version queries (the name
dispatch sends select_version into the `'select'` branch).  All state the
source mutates — the table and the global lock manager — is threaded
explicitly. -/

inductive QOp where
  | insertQ (columns : List Int)
  | updateQ (primary_key : Int) (columns : List (Option Int))
  | deleteQ (primary_key : Int)
  | selectQ (search_key : Int) (search_key_index : Nat) (proj : List Nat)
  | selectVersionQ (search_key : Int) (search_key_index : Nat) (proj : List Nat)
      (rv : Int)
  deriving Repr, DecidableEq

/-- Python value returned by one query: a bool, a record list, or `None`
(select_version's miss result). -/
inductive QResult where
  | boolR (b : Bool)
  | recordsR (rs : List Record)
  | noneR
  deriving Repr, DecidableEq

/-- Execute one query against the table (`result = query(*args)` in
`Transaction.run`). -/
def execOp (t : Table) : QOp → QResult × Table
  | .insertQ cols =>
      let r := Query.insert t cols
      (.boolR r.1, r.2)
  | .updateQ pk cols =>
      let r := Query.update t pk cols
      (.boolR r.1, r.2)
  | .deleteQ pk =>
      let r := Query.delete t pk
      (.boolR r.1, r.2)
  | .selectQ sk ski proj => (.recordsR (Query.select t sk ski proj), t)
  | .selectVersionQ sk ski proj rv =>
      match Query.select_version t sk ski proj rv with
      | some rs => (.recordsR rs, t)
      | none => (.noneR, t)

/-- Model of the `result == False` test of `Transaction.run`: in Python,
`[] == False` and `None == False` are both `False`, so only a bool `False`
result aborts. -/
def opFailed : QResult → Bool
  | .boolR b => !b
  | .recordsR _ => false
  | .noneR => false

/-- Apply a sequence of queries to a table, ignoring results (the direct,
transaction-free call path). -/
def applyOps (t : Table) : List QOp → Table
  | [] => t
  | op :: rest => applyOps (execOp t op).2 rest

/-- Model of the `operation_info` dict built by
`Transaction._prepare_operation`. -/
structure OpInfo where
  op : QOp
  old_record : Option (List (Option Int))
  primary_key : Option Int
  inserted_key : Option Int
  deriving Repr, DecidableEq

/-- Model of `Transaction._get_record_snapshot`: a full-mask select issued
with `search_key_index` 0 — the source hardcodes column 0, not
`table.key` — whose head record's columns become the snapshot; `None` when
the select misses (or raises). -/
def getRecordSnapshot (t : Table) (pk : Int) : Option (List (Option Int)) :=
  match Query.select t pk 0 (List.replicate t.num_columns 1) with
  | [] => none
  | r :: _ => some r.columns

/-- Model of `Transaction._prepare_operation`: update/delete snapshot the
record and remember the primary key; insert remembers `args[0]` (the first
column value — the source assumes the key is column 0 here too). -/
def prepareOp (t : Table) : QOp → OpInfo
  | .insertQ cols => ⟨.insertQ cols, none, none, some (cols.getD 0 0)⟩
  | .updateQ pk cols => ⟨.updateQ pk cols, getRecordSnapshot t pk, some pk, none⟩
  | .deleteQ pk => ⟨.deleteQ pk, getRecordSnapshot t pk, some pk, none⟩
  | op => ⟨op, none, none, none⟩

/-- Model of `Transaction._acquire_locks_for_operation` restricted to the
modelled operations: the `'select'` substring test catches select and
select_version (shared on `(table, args[0])`); insert locks exclusively on
`(table, args[0])` (the synthetic f-string id built from the first column
value); update and delete lock exclusively on `(table, primary_key)`.  The
`record_id is not None` guards of the source never fire:
`_get_record_id` always returns a string. -/
def acquireLocksFor (lm : LockManager) (tid : Nat) (t : Table) :
    QOp → Bool × LockManager
  | .selectQ sk _ _ => lm.acquire_shared tid (t.name, sk)
  | .selectVersionQ sk _ _ _ => lm.acquire_shared tid (t.name, sk)
  | .insertQ cols => lm.acquire_exclusive tid (t.name, cols.getD 0 0)
  | .updateQ pk _ => lm.acquire_exclusive tid (t.name, pk)
  | .deleteQ pk => lm.acquire_exclusive tid (t.name, pk)

/-- Model of `Transaction._rollback_operation`: insert compensates by
deleting the remembered key; update compensates by re-updating with the
snapshotted columns; delete compensates by re-inserting the snapshotted
columns (Python passes the selected int values positionally).  Missing
metadata (`None` snapshot) silently skips the step, as the source's guards
and blanket `except` do. -/
def rollbackOp (t : Table) (info : OpInfo) : Table :=
  match info.op with
  | .insertQ _ =>
      match info.inserted_key with
      | some k => (Query.delete t k).2
      | none => t
  | .updateQ _ _ =>
      match info.primary_key, info.old_record with
      | some pk, some old => (Query.update t pk old).2
      | _, _ => t
  | .deleteQ _ =>
      match info.primary_key, info.old_record with
      | some _, some old => (Query.insert t (old.map (fun o => o.getD 0))).2
      | _, _ => t
  | _ => t

/-- Model of `Transaction.abort`: roll back the executed operations in
reverse order, then release every lock of the transaction; returns
`False`. -/
def abortTx (tid : Nat) (t : Table) (lm : LockManager)
    (executed : List OpInfo) : Bool × Table × LockManager :=
  (false, executed.reverse.foldl rollbackOp t, lm.release_all tid)

/-- Model of `Transaction.run`: for each queued operation, build the
rollback metadata, acquire the operation's lock (no-wait: a refusal aborts
at once), execute, abort if the result is `False`, otherwise record the
operation as executed; after the last operation commit, which releases all
locks (`Transaction.commit`). -/
def runTx (tid : Nat) : List QOp → Table → LockManager → List OpInfo →
    Bool × Table × LockManager
  | [], t, lm, _ => (true, t, lm.release_all tid)
  | op :: rest, t, lm, executed =>
      let info := prepareOp t op
      let acq := acquireLocksFor lm tid t op
      if acq.1 then
        let r := execOp t op
        if opFailed r.1 then abortTx tid r.2 acq.2 executed
        else runTx tid rest r.2 acq.2 (executed ++ [info])
      else abortTx tid t acq.2 executed

/-- Record ids listed in a transaction's ledger. -/
def ledgerRids (lm : LockManager) (tid : Nat) : List RecordId :=
  ((dget lm.transaction_locks tid).getD []).map Prod.fst

/-- A transaction holds no record lock and has no ledger entry. -/
def tidFree (lm : LockManager) (tid : Nat) : Prop :=
  dget lm.transaction_locks tid = none ∧
  ∀ p ∈ lm.locks, tid ∉ p.2.shared_holders ∧ p.2.exclusive_holder ≠ some tid

instance (lm : LockManager) (tid : Nat) : Decidable (tidFree lm tid) := by
  unfold tidFree
  infer_instance

/-- Invariant maintained by `runTx`: every record lock the transaction holds
is covered by a ledger entry, and the ledger has at most one binding for the
transaction. -/
def txInv (lm : LockManager) (tid : Nat) : Prop :=
  (∀ p ∈ lm.locks,
      (tid ∈ p.2.shared_holders ∨ p.2.exclusive_holder = some tid) →
        p.1 ∈ ledgerRids lm tid) ∧
  (lm.transaction_locks.countP (fun e => e.1 = tid) ≤ 1)

/-! ### Concrete states used by counterexamples and witnesses -/

/-- Two-column table, key column 0, holding one record [5, 1]. -/
def exTableA : Table := (Query.insert (Table.new "t" 2 0) [5, 1]).2

/-- Two-column table, key column 0: [1, 10] then [2, 20] inserted. -/
def exTableB : Table :=
  (Query.insert (Query.insert (Table.new "t" 2 0) [1, 10]).2 [2, 20]).2

/-- exTableB after deleting key 2 (the record with the largest rid). -/
def exTableBdel : Table := (Query.delete exTableB 2).2

/-- Two-column table with key column 1, holding one record [10, 7]
(primary key 7). -/
def exTableC : Table := (Query.insert (Table.new "t" 2 1) [10, 7]).2

/-- A transaction against exTableC: a successful update of key 7 followed by
an update of the unknown key 8, which fails and forces an abort. -/
def exRunC : Bool × Table × LockManager :=
  runTx 0 [QOp.updateQ 7 [some 99, none], QOp.updateQ 8 [some 0, none]]
    exTableC LockManager.new []

/-- Two-column table, key column 0, with history: [5, 10] inserted, then
updated to [7, 10], then to [8, 20].  Its version chain for rid 1 holds two
entries. -/
def exTableD : Table :=
  (Query.update
    (Query.update (Query.insert (Table.new "t" 2 0) [5, 10]).2 5 [some 7, none]).2
    5 [some 8, some 20]).2

/-! ### Theorems -/

theorem wrap64_eq_of_range (v : Int) (h1 : -(2 : Int) ^ 63 ≤ v) (h2 : v < 2 ^ 63) :
    wrap64 v = v := by
  unfold wrap64
  have hlo : (0 : Int) ≤ v + 2 ^ 63 := by linarith
  have hhi : v + 2 ^ 63 < 2 ^ 64 := by norm_num at *; linarith
  rw [Int.emod_eq_of_lt hlo hhi]
  ring

theorem Page.wf_new : Page.new.wf = true := by decide

theorem Page.wf_write (p : Page) (v : Int) (h : p.wf = true) :
    ((p.write v).2).wf = true := by
  unfold Page.wf at h ⊢
  unfold Page.write Page.has_capacity
  simp only [Bool.and_eq_true, decide_eq_true_eq] at h ⊢
  by_cases hc : p.num_records < 512
  · simp [hc]
    omega
  · simp [hc]
    omega

theorem Page.wf_applyWrites (p : Page) (vs : List Int) (h : p.wf = true) :
    (p.applyWrites vs).wf = true := by
  induction vs generalizing p with
  | nil => exact h
  | cons v vs ih =>
      unfold Page.applyWrites
      exact ih _ (Page.wf_write p v h)

theorem Page.wf_setSlot (p : Page) (s : Nat) (v : Int) (h : p.wf = true) :
    (p.setSlot s v).wf = true := by
  unfold Page.wf at h ⊢
  unfold Page.setSlot
  simp only [Bool.and_eq_true, decide_eq_true_eq] at h ⊢
  simpa using h

theorem finset_singleton_char (s : Finset Nat) (tid : Nat) :
    s = {tid} ↔ s.card = 1 ∧ tid ∈ s := by
  constructor
  · rintro rfl
    simp
  · rintro ⟨h1, h2⟩
    obtain ⟨a, ha⟩ := Finset.card_eq_one.mp h1
    subst ha
    simp only [Finset.mem_singleton] at h2
    subst h2
    rfl

theorem grant_exclusive_char (s : Finset Nat) (e : Option Nat) (tid : Nat) :
    (Lock.can_grant_exclusive ⟨s, e⟩ tid = true) ↔
      (e = some tid ∨ (e = none ∧ (s = ∅ ∨ s = {tid}))) := by
  unfold Lock.can_grant_exclusive
  dsimp only
  by_cases h1 : e = some tid
  · simp [h1]
  · simp only [h1, if_false, false_or]
    by_cases h2 : e = none
    · subst h2
      simp only [ne_eq, not_true_eq_false, if_false, true_and]
      by_cases h3 : s.card = 0
      · simp [h3, Finset.card_eq_zero.mp h3]
      · have hne : s ≠ ∅ := by
          intro hh
          apply h3
          rw [hh]
          simp
        simp only [h3, if_false]
        by_cases h4 : s.card = 1 ∧ tid ∈ s
        · simp [h4, (finset_singleton_char s tid).mpr h4]
        · have h5 : s ≠ {tid} := fun hh => h4 ((finset_singleton_char s tid).mp hh)
          simp [h4, h5, hne]
    · simp [h1, h2]

theorem grant_shared_char (s : Finset Nat) (e : Option Nat) (tid : Nat) :
    (Lock.can_grant_shared ⟨s, e⟩ tid = true) ↔ (e = none ∨ e = some tid) := by
  unfold Lock.can_grant_shared
  dsimp only
  simp

/-- C6: a shared lock is granted to T exactly when there is no exclusive
holder or the exclusive holder is T; an exclusive lock is granted to T
exactly when the exclusive holder is T, or there is no exclusive holder and
the shared-holder set is empty or equals the singleton T (lock upgrade); in
every other case the acquire returns false and the lock state is
unchanged. -/
theorem lock_grant_rules (l : Lock) (tid : Nat) :
    ((l.acquire_shared tid).1 = true ↔
      (l.exclusive_holder = none ∨ l.exclusive_holder = some tid)) ∧
    ((l.acquire_exclusive tid).1 = true ↔
      (l.exclusive_holder = some tid ∨
        (l.exclusive_holder = none ∧
          (l.shared_holders = ∅ ∨ l.shared_holders = {tid})))) ∧
    ((l.acquire_shared tid).1 = false → (l.acquire_shared tid).2 = l) ∧
    ((l.acquire_exclusive tid).1 = false → (l.acquire_exclusive tid).2 = l) := by
  obtain ⟨s, e⟩ := l
  refine ⟨?_, ?_, ?_, ?_⟩
  · unfold Lock.acquire_shared
    by_cases h : Lock.can_grant_shared ⟨s, e⟩ tid
    · simp [h, (grant_shared_char s e tid).mp h]
    · have h2 : ¬(e = none ∨ e = some tid) := fun hh =>
        h ((grant_shared_char s e tid).mpr hh)
      push_neg at h2
      simp [h, h2]
  · by_cases h : Lock.can_grant_exclusive ⟨s, e⟩ tid
    · have h2 := (grant_exclusive_char s e tid).mp h
      simp [Lock.acquire_exclusive, h]
      exact h2
    · have h2 : ¬(e = some tid ∨ (e = none ∧ (s = ∅ ∨ s = {tid}))) := fun hh =>
        h ((grant_exclusive_char s e tid).mpr hh)
      push_neg at h2
      simp [Lock.acquire_exclusive, h]
      exact h2
  · unfold Lock.acquire_shared
    by_cases h : Lock.can_grant_shared ⟨s, e⟩ tid <;> simp [h]
  · unfold Lock.acquire_exclusive
    by_cases h : Lock.can_grant_exclusive ⟨s, e⟩ tid <;> simp [h]

/-- Witness for C6: a shared request against a foreign exclusive holder is
refused and leaves the lock unchanged, as `lock_grant_rules` states. -/
theorem lock_grant_rules_witness :
    ((Lock.mk ∅ (some 5)).acquire_shared 3).2 = Lock.mk ∅ (some 5) := by
  have h := lock_grant_rules (Lock.mk ∅ (some 5)) 3
  apply h.2.2.1
  cases hb : ((Lock.mk ∅ (some 5)).acquire_shared 3).1 with
  | false => rfl
  | true =>
      have := h.1.mp hb
      simp at this

section Helpers

theorem dget_dset_self {κ α : Type} [DecidableEq κ] (d : List (κ × α)) (k : κ)
    (v : α) : dget (dset d k v) k = some v := by
  induction d with
  | nil => simp [dset, dget]
  | cons e rest ih =>
      obtain ⟨k0, v0⟩ := e
      by_cases h : k0 = k
      · simp [dset, dget, h]
      · simp [dset, dget, h, ih]

theorem dget_mem {κ α : Type} [DecidableEq κ] (d : List (κ × α)) (k : κ)
    (v : α) (h : dget d k = some v) : (k, v) ∈ d := by
  induction d with
  | nil => simp [dget] at h
  | cons e rest ih =>
      obtain ⟨k0, v0⟩ := e
      by_cases hk : k0 = k
      · subst hk
        simp [dget] at h
        subst h
        exact List.mem_cons_self _ _
      · simp [dget, hk] at h
        exact List.mem_cons_of_mem _ (ih h)

theorem mem_dset {κ α : Type} [DecidableEq κ] (d : List (κ × α)) (k : κ)
    (v : α) (p : κ × α) (h : p ∈ dset d k v) : p = (k, v) ∨ p ∈ d := by
  induction d with
  | nil =>
      simp [dset] at h
      exact Or.inl h
  | cons e rest ih =>
      obtain ⟨k0, v0⟩ := e
      by_cases hk : k0 = k
      · simp only [dset, hk, if_true] at h
        rcases List.mem_cons.mp h with h | h
        · exact Or.inl h
        · exact Or.inr (List.mem_cons_of_mem _ h)
      · simp only [dset, hk, if_false] at h
        rcases List.mem_cons.mp h with h | h
        · exact Or.inr (h ▸ List.mem_cons_self _ _)
        · rcases ih h with h | h
          · exact Or.inl h
          · exact Or.inr (List.mem_cons_of_mem _ h)

theorem getD_set_self {α : Type} (l : List α) (i : Nat) (a d : α)
    (h : i < l.length) : (l.set i a).getD i d = a := by
  induction l generalizing i with
  | nil => simp at h
  | cons x xs ih =>
      cases i with
      | zero => rfl
      | succ n =>
          simp only [List.set, List.getD, List.get?]
          have := ih n (by simpa using h)
          simpa [List.getD] using this

theorem getD_set_ne {α : Type} (l : List α) (i j : Nat) (a d : α)
    (h : i ≠ j) : (l.set i a).getD j d = l.getD j d := by
  induction l generalizing i j with
  | nil => simp
  | cons x xs ih =>
      cases i with
      | zero =>
          cases j with
          | zero => exact absurd rfl h
          | succ m => rfl
      | succ n =>
          cases j with
          | zero => rfl
          | succ m =>
              simp only [List.set]
              have := ih n m (fun hh => h (by omega))
              simpa [List.getD] using this

end Helpers

section PageTheorems

theorem page_wf_iff (p : Page) :
    p.wf = true ↔ (p.num_records ≤ 512 ∧ p.data.length = 512) := by
  unfold Page.wf
  simp

/-- C8: every page reachable from a fresh page by writes holds at most 512
records; `Page.write` returns false exactly when the page already holds 512
records, leaving it unchanged, and returns true otherwise after storing the
encoded value in slot `num_records` and incrementing the count (reading the
slot back yields the value whenever it fits in a signed 64-bit integer). -/
theorem page_capacity_write_contract :
    (∀ vs : List Int, (Page.new.applyWrites vs).num_records ≤ 512) ∧
    (∀ (p : Page) (v : Int), p.num_records ≤ 512 →
      (((p.write v).1 = false) ↔ p.num_records = 512) ∧
      ((p.write v).1 = false → (p.write v).2 = p) ∧
      ((p.write v).1 = true →
        (p.write v).2.num_records = p.num_records + 1 ∧
        (p.write v).2.data = p.data.set p.num_records (wrap64 v)) ∧
      (p.data.length = 512 → (p.write v).1 = true →
        -(2 : Int) ^ 63 ≤ v → v < 2 ^ 63 →
        (p.write v).2.read p.num_records = v)) := by
  constructor
  · intro vs
    have h := Page.wf_applyWrites Page.new vs Page.wf_new
    exact ((page_wf_iff _).mp h).1
  · intro p v hle
    by_cases hc : p.num_records < 512
    · have hw : p.write v =
          (true, ⟨p.num_records + 1, p.data.set p.num_records (wrap64 v)⟩) := by
        unfold Page.write Page.has_capacity
        simp [hc]
      refine ⟨?_, ?_, ?_, ?_⟩
      · rw [hw]
        simp
        omega
      · intro h
        rw [hw] at h
        simp at h
      · intro _
        rw [hw]
        exact ⟨rfl, rfl⟩
      · intro hlen _ h1 h2
        rw [hw]
        unfold Page.read
        show (p.data.set p.num_records (wrap64 v)).getD p.num_records 0 = v
        rw [getD_set_self _ _ _ _ (by omega)]
        exact wrap64_eq_of_range v h1 h2
    · have hw : p.write v = (false, p) := by
        unfold Page.write Page.has_capacity
        simp [hc]
      have h512 : p.num_records = 512 := by omega
      refine ⟨?_, ?_, ?_, ?_⟩
      · rw [hw]
        simp [h512]
      · intro _
        rw [hw]
      · intro h
        rw [hw] at h
        simp at h
      · intro _ h
        rw [hw] at h
        simp at h

/-- Witness for C8 at a fresh page: the hypothesis holds and a write of 7
succeeds, is readable back, and bumps the count. -/
theorem page_capacity_write_contract_witness :
    Page.new.num_records ≤ 512 ∧
    ((Page.new.write 7).1 = false ↔ Page.new.num_records = 512) ∧
    (Page.new.write 7).2.read Page.new.num_records = 7 := by
  have h := page_capacity_write_contract.2 Page.new 7 (by decide)
  refine ⟨by decide, h.1, ?_⟩
  exact h.2.2.2 (by decide) (by decide) (by decide) (by decide)

end PageTheorems

section InsertTheorems

/-- C1 counterexample: `exTableA` already holds primary key 5 live in the
index and the page directory, yet inserting a second row with key 5
succeeds: `Query.insert` returns true (the claim says false), and
`Table.insert_row` allocates rid 2 (the claim says null) and installs a new
page-directory entry. -/
theorem insert_duplicate_key_counterexample :
    idxLocate exTableA.index 5 = some 1 ∧
    dget exTableA.page_directory 1 = some [(0, 0), (0, 0)] ∧
    (Query.insert exTableA [5, 9]).1 = true ∧
    (exTableA.insert_row [5, 9]).1 = 2 ∧
    dget (exTableA.insert_row [5, 9]).2.page_directory 2 = some [(0, 1), (0, 1)] := by
  decide

/-- C1 (amended): the source has no duplicate-key guard at all.  For any
well-formed insert call (the key column within the tuple's arity, the arity
within the column count, int64 values — the cases where Python raises no
exception), `Table.insert_row` unconditionally allocates rid
`rid_counter + 1`, installs the page-directory entry for it, and inserts the
key value into the primary-key index, and `Query.insert` unconditionally
reports success — whether or not the key already appears in the index. -/
theorem insert_row_never_rejects (t : Table) (columns : List Int)
    (_hkey : t.key < columns.length)
    (_hblen : columns.length ≤ t.base_page.length)
    (_hrange : ∀ v ∈ columns, -(2 : Int) ^ 63 ≤ v ∧ v < 2 ^ 63) :
    (t.insert_row columns).1 = t.rid_counter + 1 ∧
    (Query.insert t columns).1 = true ∧
    dget (t.insert_row columns).2.page_directory (t.rid_counter + 1) =
      some (writeVals columns t.base_page).2 ∧
    (t.insert_row columns).2.index =
      idxInsert t.index (columns.getD t.key 0) (t.rid_counter + 1) := by
  refine ⟨rfl, rfl, ?_, rfl⟩
  exact dget_dset_self _ _ _

/-- Witness for C1 (amended) at the duplicate-key insert of the
counterexample: hypotheses hold and the second insert of key 5 is accepted
with rid 2. -/
theorem insert_row_never_rejects_witness :
    exTableA.key < ([( 5 : Int), 9] : List Int).length ∧
    ((exTableA.insert_row [5, 9]).1 = exTableA.rid_counter + 1 ∧
      (Query.insert exTableA [5, 9]).1 = true ∧
      dget (exTableA.insert_row [5, 9]).2.page_directory
          (exTableA.rid_counter + 1) =
        some (writeVals [5, 9] exTableA.base_page).2 ∧
      (exTableA.insert_row [5, 9]).2.index =
        idxInsert exTableA.index (([(5 : Int), 9]).getD exTableA.key 0)
          (exTableA.rid_counter + 1)) :=
  ⟨by decide,
    insert_row_never_rejects exTableA [5, 9] (by decide) (by decide) (by decide)⟩

end InsertTheorems

section RidTheorems

/-- C3 counterexample: in `exTableB` rid 2 was allocated (for key 2); after
deleting that record and cycling the table through close/open, the rid
counter is recomputed as the maximum live rid (1), and the next insert hands
out rid 2 again — equal to a previously allocated rid. -/
theorem rid_reuse_counterexample :
    exTableB.rid_counter = 2 ∧
    dget exTableB.page_directory 2 = some [(0, 1), (0, 1)] ∧
    exTableBdel.reload.rid_counter = 1 ∧
    (exTableBdel.reload.insert_row [3, 30]).1 = 2 := by
  decide

theorem update_rid_counter (t : Table) (pk : Int) (cols : List (Option Int)) :
    (Query.update t pk cols).2.rid_counter = t.rid_counter := by
  unfold Query.update
  split
  · rfl
  · split
    · rfl
    · dsimp only
      split
      · rfl
      · rfl

theorem delete_rid_counter (t : Table) (pk : Int) :
    (Query.delete t pk).2.rid_counter = t.rid_counter := by
  unfold Query.delete
  split
  · rfl
  · split
    · rfl
    · rfl

theorem execOp_rid_counter (t : Table) (op : QOp) :
    t.rid_counter ≤ (execOp t op).2.rid_counter := by
  cases op with
  | insertQ cols => exact Nat.le_succ _
  | updateQ pk cols => exact (update_rid_counter t pk cols).symm.le
  | deleteQ pk => exact (delete_rid_counter t pk).symm.le
  | selectQ sk ski proj => exact Nat.le_refl _
  | selectVersionQ sk ski proj rv =>
      simp only [execOp]
      cases Query.select_version t sk ski proj rv <;> exact Nat.le_refl _

/-- C3 (amended): within one open session rids do strictly increase — no
query ever decreases the rid counter, and `insert_row` always hands out
`rid_counter + 1`, strictly larger than every rid allocated before it in the
session.  (Across a close/open cycle the counter is instead recomputed as
the maximum live rid, so rids of deleted records can be reused, as the
counterexample shows.) -/
theorem rid_monotone_within_session (t : Table) (ops : List QOp)
    (cols : List Int) :
    t.rid_counter ≤ (applyOps t ops).rid_counter ∧
    ((applyOps t ops).insert_row cols).1 = (applyOps t ops).rid_counter + 1 := by
  constructor
  · induction ops generalizing t with
    | nil => exact Nat.le_refl _
    | cons op rest ih =>
        exact Nat.le_trans (execOp_rid_counter t op) (ih (execOp t op).2)
  · rfl

end RidTheorems

section SelectTheorems

/-- C5 counterexample: a `select_version` miss (key 5 absent from a fresh
table) returns Python `None` — not the empty list the claim requires. -/
theorem select_version_miss_counterexample :
    Query.select_version (Table.new "t" 2 0) 5 0 [1, 1] 0 = none ∧
    Query.select_version (Table.new "t" 2 0) 5 0 [1, 1] 0 ≠ some [] := by
  decide

/-- C5 (amended): `select` returns a list of at most one record and the
empty list on any miss; `select_version` likewise produces at most one
record on a hit, but on a miss (no index entry, or no live page-directory
entry) it returns Python `None` rather than a list. -/
theorem select_result_shape (t : Table) (sk : Int) (ski : Nat)
    (proj : List Nat) (rv : Int) :
    (Query.select t sk ski proj).length ≤ 1 ∧
    (tableLocate t ski sk = none → Query.select t sk ski proj = []) ∧
    (∀ rid, tableLocate t ski sk = some rid →
      dget t.page_directory rid = none → Query.select t sk ski proj = []) ∧
    ((Query.select_version t sk ski proj rv = none) ∨
      ∃ r, Query.select_version t sk ski proj rv = some [r]) ∧
    (tableLocate t ski sk = none →
      Query.select_version t sk ski proj rv = none) ∧
    (∀ rid, tableLocate t ski sk = some rid →
      dget t.page_directory rid = none →
      Query.select_version t sk ski proj rv = none) := by
  refine ⟨?_, ?_, ?_, ?_, ?_, ?_⟩
  · unfold Query.select
    split
    · simp
    · split
      · simp
      · simp
  · intro h
    unfold Query.select
    rw [h]
  · intro rid h1 h2
    unfold Query.select
    rw [h1]
    dsimp only
    rw [h2]
  · unfold Query.select_version
    split
    · exact Or.inl rfl
    · split
      · exact Or.inl rfl
      · exact Or.inr ⟨_, rfl⟩
  · intro h
    unfold Query.select_version
    rw [h]
  · intro rid h1 h2
    unfold Query.select_version
    rw [h1]
    dsimp only
    rw [h2]

/-- Witness for C5 (amended) at a fresh table: the miss hypotheses hold and
both query paths take their miss branches. -/
theorem select_result_shape_witness :
    tableLocate (Table.new "t" 2 0) 0 5 = none ∧
    Query.select (Table.new "t" 2 0) 5 0 [1, 1] = [] ∧
    Query.select_version (Table.new "t" 2 0) 5 0 [1, 1] (-1) = none := by
  have h := select_result_shape (Table.new "t" 2 0) 5 0 [1, 1] (-1)
  exact ⟨by decide, h.2.1 (by decide), h.2.2.2.2.1 (by decide)⟩

end SelectTheorems

section SelectVersionTheorems

theorem getElem_opt_eq_some_getD {α : Type} (l : List α) (i : Nat) (d : α)
    (h : i < l.length) : l[i]? = some (l.getD i d) := by
  induction l generalizing i with
  | nil => simp at h
  | cons x xs ih =>
      cases i with
      | zero => simp [List.getD]
      | succ n =>
          simp only [List.getElem?_cons_succ, List.getD_cons_succ]
          exact ih n (by simpa using h)

theorem readVersionedCols_congr (t : Table) (rid : Nat)
    (pd_copy : List (Nat × Nat)) (av rv : Int)
    (h : ∀ i, Query.codeVersionValue t rid pd_copy av i =
      specVersionValue t rid pd_copy rv i) :
    ∀ (proj : List Nat) (i : Nat),
      Query.readVersionedCols t rid pd_copy av proj i =
        specVersionCols t rid pd_copy rv proj i := by
  intro proj
  induction proj with
  | nil => intro i; rfl
  | cons p rest ih =>
      intro i
      unfold Query.readVersionedCols specVersionCols
      rw [h i, ih (i + 1)]

theorem codeVersionValue_resolved (t : Table) (rid : Nat)
    (pd : List (Nat × Nat)) (rv : Int) (hrv : rv ≤ 0) (i : Nat) :
    Query.codeVersionValue t rid pd
      (if rv < 0 then
        if ((dget t.version_chain rid).getD []).length = 0 then 0
        else
          if ((dget t.version_chain rid).getD []).length ≤ (-rv - 1).toNat then
            -(((dget t.version_chain rid).getD []).length : Int)
          else rv
       else rv) i = specVersionValue t rid pd rv i := by
  by_cases h0 : rv < 0
  · rw [if_pos h0]
    by_cases hlen : ((dget t.version_chain rid).getD []).length = 0
    · rw [if_pos hlen]
      have hnil : (dget t.version_chain rid).getD [] = [] :=
        List.length_eq_zero.mp hlen
      unfold Query.codeVersionValue specVersionValue
      rw [if_pos rfl, if_pos (Or.inr hnil)]
    · rw [if_neg hlen]
      have hpos : 0 < ((dget t.version_chain rid).getD []).length :=
        Nat.pos_of_ne_zero hlen
      have hrneq : rv ≠ 0 := by omega
      have hnotnil : ¬(rv = 0 ∨ (dget t.version_chain rid).getD [] = []) := by
        push_neg
        exact ⟨hrneq, fun h => hlen (by simp [h])⟩
      by_cases hcl :
          ((dget t.version_chain rid).getD []).length ≤ (-rv - 1).toNat
      · rw [if_pos hcl]
        have havneq : -((((dget t.version_chain rid).getD []).length : Nat) : Int) ≠ 0 := by
          omega
        unfold Query.codeVersionValue specVersionValue
        rw [if_neg havneq, if_neg hnotnil]
        have hvi : (-(-((((dget t.version_chain rid).getD []).length : Nat) : Int)) - 1).toNat =
            ((dget t.version_chain rid).getD []).length - 1 := by omega
        have hkc : min (-rv - 1).toNat
            (((dget t.version_chain rid).getD []).length - 1) =
            ((dget t.version_chain rid).getD []).length - 1 := by omega
        rw [hvi, hkc]
        rw [getElem_opt_eq_some_getD ((dget t.version_chain rid).getD [])
          (((dget t.version_chain rid).getD []).length - 1) [] (by omega)]
      · rw [if_neg hcl]
        unfold Query.codeVersionValue specVersionValue
        rw [if_neg hrneq, if_neg hnotnil]
        have hkc : min (-rv - 1).toNat
            (((dget t.version_chain rid).getD []).length - 1) =
            (-rv - 1).toNat := by omega
        rw [hkc]
        rw [getElem_opt_eq_some_getD ((dget t.version_chain rid).getD [])
          ((-rv - 1).toNat) [] (by omega)]
  · have h00 : rv = 0 := le_antisymm hrv (not_lt.mp h0)
    subst h00
    rw [if_neg (lt_irrefl (0 : Int))]
    unfold Query.codeVersionValue specVersionValue
    rw [if_pos rfl, if_pos (Or.inl rfl)]

/-- C4: for a live rid (the index resolves the search key and the page
directory has an entry) and any relative_version ≤ 0, `select_version`
returns the single record whose projected columns follow the
specification's rule: resolve k = -relative_version - 1, clamp to the
oldest version when the chain is shorter, read the recorded tail slot when
the chosen version entry has a location for the column and the base slot
otherwise; relative_version 0 (or an absent history) reads every projected
column from the base slot given by the page directory. -/
theorem select_version_follows_spec (t : Table) (sk : Int) (ski : Nat)
    (proj : List Nat) (rv : Int) (rid : Nat) (pd_copy : List (Nat × Nat))
    (hloc : tableLocate t ski sk = some rid)
    (hpd : dget t.page_directory rid = some pd_copy)
    (hrv : rv ≤ 0) :
    Query.select_version t sk ski proj rv =
      some [⟨rid, sk, specVersionCols t rid pd_copy rv proj 0⟩] := by
  have hcv : ∀ i, Query.codeVersionValue t rid pd_copy
      (if rv < 0 then
        if ((dget t.version_chain rid).getD []).length = 0 then 0
        else
          if ((dget t.version_chain rid).getD []).length ≤ (-rv - 1).toNat then
            -(((dget t.version_chain rid).getD []).length : Int)
          else rv
       else rv) i = specVersionValue t rid pd_copy rv i :=
    fun i => codeVersionValue_resolved t rid pd_copy rv hrv i
  have hcols := readVersionedCols_congr t rid pd_copy _ rv hcv proj 0
  unfold Query.select_version
  rw [hloc]
  dsimp only
  rw [hpd]
  dsimp only
  rw [hcols]

/-- Witness for C4 on the two-update history table: the liveness hypotheses
hold and the relative-version read of -1 matches the specification rule. -/
theorem select_version_follows_spec_witness :
    tableLocate exTableD 0 5 = some 1 ∧
    dget exTableD.page_directory 1 = some [(0, 0), (0, 0)] ∧
    Query.select_version exTableD 5 0 [1, 1] (-1) =
      some [⟨1, 5, specVersionCols exTableD 1 [(0, 0), (0, 0)] (-1) [1, 1] 0⟩] := by
  refine ⟨by decide, by decide, ?_⟩
  exact select_version_follows_spec exTableD 5 0 [1, 1] (-1) 1 [(0, 0), (0, 0)]
    (by decide) (by decide) (by decide)

end SelectVersionTheorems

section ListHelpers

theorem getD_mem_of_lt {α : Type} (l : List α) (i : Nat) (d : α)
    (h : i < l.length) : l.getD i d ∈ l := by
  induction l generalizing i with
  | nil => simp at h
  | cons x xs ih =>
      cases i with
      | zero => simp [List.getD]
      | succ n =>
          simp only [List.getD_cons_succ]
          refine List.mem_cons_of_mem _ (ih n ?_)
          simp only [List.length_cons] at h
          omega

theorem getD_concat_self {α : Type} (l : List α) (x d : α) :
    (l ++ [x]).getD l.length d = x := by
  induction l with
  | nil => rfl
  | cons y ys ih =>
      simp only [List.cons_append, List.length_cons, List.getD_cons_succ]
      exact ih

theorem getD_replicate {α : Type} (n j : Nat) (a d : α) (h : j < n) :
    (List.replicate n a).getD j d = a := by
  induction n generalizing j with
  | zero => simp at h
  | succ m ih =>
      cases j with
      | zero => rfl
      | succ i =>
          simp only [List.replicate, List.getD_cons_succ]
          exact ih i (by omega)

theorem getD_map_some (l : List Int) (j : Nat) (h : j < l.length) :
    (l.map some).getD j none = some (l.getD j 0) := by
  induction l generalizing j with
  | nil => simp at h
  | cons x xs ih =>
      cases j with
      | zero => rfl
      | succ n =>
          simp only [List.map, List.getD_cons_succ]
          exact ih n (by simpa using h)

theorem list_eq_of_getD {α : Type} (l1 l2 : List α) (d : α)
    (hlen : l1.length = l2.length)
    (h : ∀ j, j < l1.length → l1.getD j d = l2.getD j d) : l1 = l2 := by
  induction l1 generalizing l2 with
  | nil =>
      cases l2 with
      | nil => rfl
      | cons y ys => simp at hlen
  | cons x xs ih =>
      cases l2 with
      | nil => simp at hlen
      | cons y ys =>
          have h0 : x = y := h 0 (by simp)
          rw [h0]
          congr 1
          refine ih ys (by simpa using hlen) ?_
          intro j hj
          have := h (j + 1) (by simpa using Nat.succ_lt_succ hj)
          simpa [List.getD_cons_succ] using this

theorem colWF_iff (col : List Page) :
    colWF col = true ↔ (col ≠ [] ∧ ∀ p ∈ col, p.wf = true) := by
  unfold colWF
  simp [List.all_eq_true, List.isEmpty_iff]

end ListHelpers

section RoundTripTheorems

theorem page_write_of_capacity (p : Page) (v : Int) (h : p.num_records < 512) :
    p.write v = (true, ⟨p.num_records + 1, p.data.set p.num_records (wrap64 v)⟩) := by
  unfold Page.write Page.has_capacity
  simp [h]

theorem appendValue_spec (col : List Page) (v : Int) (h : colWF col = true) :
    colWF (appendValue col v).1 = true ∧
    ((appendValue col v).1.getD (appendValue col v).2.1 Page.new).read
        (appendValue col v).2.2 = wrap64 v := by
  obtain ⟨hne, hwf⟩ := (colWF_iff col).mp h
  have hlen0 : 0 < col.length := List.length_pos.mpr hne
  have hcur : col.getD (col.length - 1) Page.new ∈ col :=
    getD_mem_of_lt col (col.length - 1) Page.new (by omega)
  have hcurwf := (page_wf_iff _).mp (hwf _ hcur)
  by_cases hc : (col.getD (col.length - 1) Page.new).has_capacity
  · have hnum : (col.getD (col.length - 1) Page.new).num_records < 512 := by
      unfold Page.has_capacity at hc
      simpa using hc
    have hav : appendValue col v =
        (col.set (col.length - 1)
          ⟨(col.getD (col.length - 1) Page.new).num_records + 1,
            (col.getD (col.length - 1) Page.new).data.set
              (col.getD (col.length - 1) Page.new).num_records (wrap64 v)⟩,
         col.length - 1,
         (col.getD (col.length - 1) Page.new).num_records + 1 - 1) := by
      unfold appendValue
      dsimp only
      rw [if_pos hc, page_write_of_capacity _ _ hnum]
    rw [hav]
    constructor
    · rw [colWF_iff]
      constructor
      · intro hset
        have hl2 := congrArg List.length hset
        simp only [List.length_set, List.length_nil] at hl2
        omega
      · intro p hp
        rcases List.mem_or_eq_of_mem_set hp with hp | hp
        · exact hwf p hp
        · subst hp
          rw [page_wf_iff]
          refine ⟨by dsimp only; omega, ?_⟩
          dsimp only
          rw [List.length_set]
          exact hcurwf.2
    · dsimp only
      simp only [Nat.add_sub_cancel]
      rw [getD_set_self _ _ _ _ (by omega)]
      unfold Page.read
      dsimp only
      rw [getD_set_self _ _ _ _ (by omega)]
  · have hav : appendValue col v =
        ((col ++ [Page.new]).set col.length
          ⟨0 + 1, (List.replicate 512 (0 : Int)).set 0 (wrap64 v)⟩,
         col.length, 0 + 1 - 1) := by
      unfold appendValue
      dsimp only
      rw [if_neg hc]
      simp only [List.length_append, List.length_singleton, Nat.add_sub_cancel]
      rw [getD_concat_self col Page.new Page.new]
      rw [page_write_of_capacity Page.new v (by norm_num [Page.new])]
      rfl
    rw [hav]
    constructor
    · rw [colWF_iff]
      constructor
      · intro hset
        have hl2 := congrArg List.length hset
        simp only [List.length_set, List.length_append, List.length_singleton,
          List.length_nil] at hl2
        omega
      · intro p hp
        rcases List.mem_or_eq_of_mem_set hp with hp | hp
        · rcases List.mem_append.mp hp with hp | hp
          · exact hwf p hp
          · simp only [List.mem_singleton] at hp
            subst hp
            exact Page.wf_new
        · subst hp
          rw [page_wf_iff]
          refine ⟨by dsimp only; omega, ?_⟩
          dsimp only
          rw [List.length_set]
          simp
    · dsimp only
      simp only [Nat.add_sub_cancel]
      rw [getD_set_self _ _ _ _ (by simp)]
      unfold Page.read
      dsimp only
      rw [getD_set_self _ _ _ _ (by simp)]

theorem writeVals_spec (vs : List Int) (cols : List (List Page))
    (hlen : vs.length ≤ cols.length) (hwf : ∀ c ∈ cols, colWF c = true) :
    (writeVals vs cols).1.length = cols.length ∧
    (writeVals vs cols).2.length = vs.length ∧
    (∀ c ∈ (writeVals vs cols).1, colWF c = true) ∧
    (∀ j, j < vs.length →
      (((writeVals vs cols).1.getD j []).getD
          ((writeVals vs cols).2.getD j (0, 0)).1 Page.new).read
        ((writeVals vs cols).2.getD j (0, 0)).2 = wrap64 (vs.getD j 0)) := by
  induction vs generalizing cols with
  | nil =>
      refine ⟨rfl, rfl, hwf, ?_⟩
      intro j hj
      simp at hj
  | cons v vs ih =>
      cases cols with
      | nil => simp at hlen
      | cons col cols =>
          have hwfc : colWF col = true := hwf col (List.mem_cons_self _ _)
          have hwfr : ∀ c ∈ cols, colWF c = true :=
            fun c hc => hwf c (List.mem_cons_of_mem _ hc)
          have ha := appendValue_spec col v hwfc
          have ihh := ih cols (by simpa using hlen) hwfr
          have hw : writeVals (v :: vs) (col :: cols) =
              ((appendValue col v).1 :: (writeVals vs cols).1,
               ((appendValue col v).2.1, (appendValue col v).2.2)
                  :: (writeVals vs cols).2) := rfl

          rw [hw]
          refine ⟨by simp [ihh.1], by simp [ihh.2.1], ?_, ?_⟩
          · intro c hc
            rcases List.mem_cons.mp hc with hc | hc
            · exact hc ▸ ha.1
            · exact ihh.2.2.1 c hc
          · intro j hj
            cases j with
            | zero =>
                simpa [List.getD_cons_zero] using ha.2
            | succ n =>
                simp only [List.getD_cons_succ]
                exact ihh.2.2.2 n (by simpa using hj)

theorem readProjected_length (t : Table) (locs : List (Nat × Nat))
    (proj : List Nat) (i : Nat) :
    (Query.readProjected t locs proj i).length = locs.length := by
  induction locs generalizing i with
  | nil => rfl
  | cons loc locs ih =>
      unfold Query.readProjected
      simp [ih]

theorem readProjected_getD (t : Table) (locs : List (Nat × Nat))
    (proj : List Nat) (i j : Nat) (hj : j < locs.length) :
    (Query.readProjected t locs proj i).getD j none =
      (if proj.getD (i + j) 0 ≠ 0 then
        some (t.read_column (i + j) (locs.getD j (0, 0)).1 (locs.getD j (0, 0)).2)
       else none) := by
  induction locs generalizing i j with
  | nil => simp at hj
  | cons loc locs ih =>
      unfold Query.readProjected
      cases j with
      | zero => simp [List.getD_cons_zero]
      | succ n =>
          simp only [List.getD_cons_succ]
          rw [ih (i + 1) n (by simpa using hj)]
          have harith : i + 1 + n = i + (n + 1) := by omega
          rw [harith]

theorem idxLocate_idxInsert_fresh (idx : PKIndex) (v : Int) (rid : Nat)
    (h : idxLocate idx v = none) :
    idxLocate (idxInsert idx v rid) v = some rid := by
  induction idx with
  | nil => simp [idxInsert, idxLocate]
  | cons e rest ih =>
      obtain ⟨k, r⟩ := e
      by_cases hk : k = v
      · simp [idxLocate, hk] at h
      · unfold idxInsert
        by_cases hlt : k < v
        · rw [if_pos hlt]
          unfold idxLocate
          rw [if_neg hk]
          refine ih ?_
          unfold idxLocate at h
          rwa [if_neg hk] at h
        · rw [if_neg hlt]
          unfold idxLocate
          rw [if_pos rfl]

/-- C9: round-trip law.  For a well-formed table, a full-arity tuple of
int64 values whose primary-key value is not yet in the index, a successful
insert followed by a select on the key value with every column projected
returns exactly one record whose column values equal the inserted tuple. -/
theorem insert_then_select_roundtrip (t : Table) (columns : List Int)
    (hwf : t.wfB = true)
    (hlen : columns.length = t.num_columns)
    (hrange : ∀ v ∈ columns, -(2 : Int) ^ 63 ≤ v ∧ v < 2 ^ 63)
    (hfresh : idxLocate t.index (columns.getD t.key 0) = none) :
    Query.select (Query.insert t columns).2 (columns.getD t.key 0) t.key
        (List.replicate t.num_columns 1) =
      [⟨t.rid_counter + 1, columns.getD t.key 0, columns.map some⟩] := by
  have hwfb : t.base_page.length = t.num_columns ∧ ∀ c ∈ t.base_page, colWF c = true := by
    unfold Table.wfB at hwf
    simp only [Bool.and_eq_true, decide_eq_true_eq, List.all_eq_true] at hwf
    obtain ⟨⟨⟨⟨h1, h2⟩, h3⟩, h4⟩, h5⟩ := hwf
    exact ⟨h1, fun c hc => h3 c hc⟩
  have hv := writeVals_spec columns t.base_page (by omega) hwfb.2
  have ht' : (Query.insert t columns).2 = (t.insert_row columns).2 := rfl
  have hkey' : ((t.insert_row columns).2).key = t.key := rfl
  have hloc : tableLocate (t.insert_row columns).2 t.key (columns.getD t.key 0) =
      some (t.rid_counter + 1) := by
    unfold tableLocate
    rw [hkey']
    rw [if_pos rfl]
    exact idxLocate_idxInsert_fresh t.index _ _ hfresh
  have hpd : dget ((t.insert_row columns).2).page_directory (t.rid_counter + 1) =
      some (writeVals columns t.base_page).2 :=
    dget_dset_self _ _ _
  have hcols : Query.readProjected (t.insert_row columns).2
      (writeVals columns t.base_page).2 (List.replicate t.num_columns 1) 0 =
      columns.map some := by
    refine list_eq_of_getD _ _ none ?_ ?_
    · rw [readProjected_length, hv.2.1, List.length_map]
    · intro j hj
      rw [readProjected_length] at hj
      rw [hv.2.1] at hj
      rw [readProjected_getD _ _ _ _ _ (by rw [hv.2.1]; exact hj)]
      have hproj : (List.replicate t.num_columns 1).getD (0 + j) 0 ≠ 0 := by
        rw [Nat.zero_add]
        rw [getD_replicate t.num_columns j 1 0 (by omega)]
        norm_num
      rw [if_pos hproj]
      rw [getD_map_some columns j hj]
      have hread := hv.2.2.2 j hj
      have hcol : ((t.insert_row columns).2).read_column (0 + j)
          ((writeVals columns t.base_page).2.getD j (0, 0)).1
          ((writeVals columns t.base_page).2.getD j (0, 0)).2 =
          wrap64 (columns.getD j 0) := by
        rw [Nat.zero_add]
        unfold Table.read_column
        exact hread
      rw [hcol]
      rw [wrap64_eq_of_range _ (hrange _ (getD_mem_of_lt _ _ _ hj)).1
        (hrange _ (getD_mem_of_lt _ _ _ hj)).2]
  rw [ht']
  unfold Query.select
  rw [hloc]
  dsimp only
  rw [hpd]
  dsimp only
  rw [hcols]

/-- Witness for C9 on a fresh two-column table and the tuple [5, 7]: the
well-formedness, arity, range, and freshness hypotheses hold, and the
insert-then-select round trip returns the tuple. -/
theorem insert_then_select_roundtrip_witness :
    (Table.new "t" 2 0).wfB = true ∧
    idxLocate (Table.new "t" 2 0).index ([5, 7].getD (Table.new "t" 2 0).key 0) = none ∧
    Query.select (Query.insert (Table.new "t" 2 0) [5, 7]).2
        ([(5 : Int), 7].getD (Table.new "t" 2 0).key 0) (Table.new "t" 2 0).key
        (List.replicate (Table.new "t" 2 0).num_columns 1) =
      [⟨(Table.new "t" 2 0).rid_counter + 1,
        [(5 : Int), 7].getD (Table.new "t" 2 0).key 0, [5, 7].map some⟩] := by
  refine ⟨by decide, by decide, ?_⟩
  exact insert_then_select_roundtrip (Table.new "t" 2 0) [5, 7] (by decide)
    (by decide) (by decide) (by decide)

end RoundTripTheorems

section UpdateTheorems

theorem posValid_spec (base : List (List Page)) (locs : List (Nat × Nat))
    (i : Nat) (h : posValid base locs i = true) (j : Nat) (hj : j < locs.length) :
    (locs.getD j (0, 0)).1 < (base.getD (i + j) []).length ∧
      (locs.getD j (0, 0)).2 < 512 := by
  induction locs generalizing i j with
  | nil => simp at hj
  | cons loc locs ih =>
      unfold posValid at h
      simp only [Bool.and_eq_true, decide_eq_true_eq] at h
      cases j with
      | zero =>
          simp only [List.getD_cons_zero, Nat.add_zero]
          exact h.1
      | succ n =>
          simp only [List.getD_cons_succ]
          have := ih (i + 1) h.2 n (by simpa using hj)
          rwa [show i + 1 + n = i + (n + 1) by omega] at this

theorem updateCols_read_set (vs : List (Option Int)) (locs : List (Nat × Nat))
    (base tail : List (List Page)) (j : Nat) (nv : Int)
    (hj : j < vs.length)
    (hv : vs.getD j none = some nv)
    (hl : vs.length ≤ locs.length)
    (hb : vs.length ≤ base.length)
    (ht : vs.length ≤ tail.length)
    (hwfb : ∀ c ∈ base, colWF c = true)
    (hpi : (locs.getD j (0, 0)).1 < (base.getD j []).length)
    (hsi : (locs.getD j (0, 0)).2 < 512) :
    (((Query.updateCols vs locs base tail).1.getD j []).getD
        (locs.getD j (0, 0)).1 Page.new).read (locs.getD j (0, 0)).2 =
      wrap64 nv := by
  induction vs generalizing locs base tail j with
  | nil => simp at hj
  | cons v vs ih =>
      cases locs with
      | nil => simp at hl
      | cons loc locs =>
      cases base with
      | nil => simp at hb
      | cons bcol brest =>
      cases tail with
      | nil => simp at ht
      | cons tcol trest =>
      cases j with
      | zero =>
          have hv0 : v = some nv := by simpa using hv
          subst hv0
          have h1 : (Query.updateCols (some nv :: vs) (loc :: locs)
              (bcol :: brest) (tcol :: trest)).1 =
              bcol.set loc.1 ((bcol.getD loc.1 Page.new).setSlot loc.2 nv)
                :: (Query.updateCols vs locs brest trest).1 := rfl
          rw [h1]
          simp only [List.getD_cons_zero] at hpi hsi ⊢
          rw [getD_set_self _ _ _ _ hpi]
          have hpagewf : ((bcol.getD loc.1 Page.new).wf = true) :=
            ((colWF_iff bcol).mp (hwfb bcol (List.mem_cons_self _ _))).2 _
              (getD_mem_of_lt _ _ _ hpi)
          have hdl : (bcol.getD loc.1 Page.new).data.length = 512 :=
            ((page_wf_iff _).mp hpagewf).2
          unfold Page.setSlot Page.read
          dsimp only
          rw [getD_set_self _ _ _ _ (by omega)]
      | succ n =>
          have h1 : (Query.updateCols (v :: vs) (loc :: locs)
              (bcol :: brest) (tcol :: trest)).1.getD (n + 1) [] =
              (Query.updateCols vs locs brest trest).1.getD n [] := by
            cases v with
            | none => rfl
            | some nv0 => rfl
          rw [h1]
          simp only [List.getD_cons_succ] at hv hpi hsi ⊢
          refine ih locs brest trest n (by simpa using hj) hv
            (by simpa using hl) (by simpa using hb) (by simpa using ht)
            (fun c hc => hwfb c (List.mem_cons_of_mem _ hc)) hpi hsi

/-- C10: a successful update that rewrites the primary-key column to a fresh
value k' leaves the primary-key index untouched, so a select on k' misses
(empty list) while a select on the old key k still locates the record and
returns k' as its stored key-column value. -/
theorem update_key_rewrite_not_indexed (t : Table) (k k' : Int)
    (cols : List (Option Int)) (rid : Nat) (locs : List (Nat × Nat))
    (hwf : t.wfB = true)
    (hloc : idxLocate t.index k = some rid)
    (hpd : dget t.page_directory rid = some locs)
    (hck : cols.getD t.key none = some k')
    (hne : k' ≠ k)
    (hfresh : idxLocate t.index k' = none)
    (hclen : cols.length = t.num_columns)
    (hrange : -(2 : Int) ^ 63 ≤ k' ∧ k' < 2 ^ 63) :
    (Query.update t k cols).1 = true ∧
    (Query.update t k cols).2.index = t.index ∧
    Query.select (Query.update t k cols).2 k' t.key
      (List.replicate t.num_columns 1) = [] ∧
    Query.select (Query.update t k cols).2 k t.key
        ((List.replicate t.num_columns 0).set t.key 1) =
      [⟨rid, k,
        (List.replicate t.num_columns (none : Option Int)).set t.key (some k')⟩] := by
  have hkeylt : t.key < cols.length := by
    by_contra hge
    rw [List.getD_eq_default _ _ (by omega)] at hck
    exact Option.noConfusion hck
  have hwfparts := hwf
  unfold Table.wfB at hwfparts
  simp only [Bool.and_eq_true, decide_eq_true_eq, List.all_eq_true] at hwfparts
  obtain ⟨⟨⟨⟨hblen, htlen⟩, hbwf⟩, htwf⟩, hpdwf⟩ := hwfparts
  have hentry := hpdwf (rid, locs) (dget_mem _ _ _ hpd)
  simp only [Bool.and_eq_true, decide_eq_true_eq] at hentry
  have hllen : locs.length = t.num_columns := hentry.1
  have hpv := hentry.2
  have hu : Query.update t k cols = (true,
      { t with
        base_page := (Query.updateCols cols locs t.base_page t.tail_page).1
        tail_page := (Query.updateCols cols locs t.base_page t.tail_page).2.1
        version_chain := dset t.version_chain rid
          ((Query.updateCols cols locs t.base_page t.tail_page).2.2 ::
            (dget t.version_chain rid).getD []) }) := by
    unfold Query.update
    rw [hloc]
    dsimp only
    rw [hpd]
    dsimp only
    rw [hck]
    dsimp only
    rw [if_pos hne, hfresh]
    rfl
  have hposj := posValid_spec t.base_page locs 0 hpv t.key (by omega)
  rw [Nat.zero_add] at hposj
  refine ⟨by rw [hu], by rw [hu], ?_, ?_⟩
  · rw [hu]
    unfold Query.select tableLocate
    dsimp only
    rw [if_pos rfl, hfresh]
  · rw [hu]
    unfold Query.select tableLocate
    dsimp only
    rw [if_pos rfl, hloc]
    dsimp only
    rw [show dget t.page_directory rid = some locs from hpd]
    dsimp only
    have hcols : Query.readProjected
        { t with
          base_page := (Query.updateCols cols locs t.base_page t.tail_page).1
          tail_page := (Query.updateCols cols locs t.base_page t.tail_page).2.1
          version_chain := dset t.version_chain rid
            ((Query.updateCols cols locs t.base_page t.tail_page).2.2 ::
              (dget t.version_chain rid).getD []) }
        locs ((List.replicate t.num_columns 0).set t.key 1) 0 =
        (List.replicate t.num_columns (none : Option Int)).set t.key (some k') := by
      refine list_eq_of_getD _ _ none ?_ ?_
      · rw [readProjected_length, hllen, List.length_set, List.length_replicate]
      · intro j hj
        rw [readProjected_length, hllen] at hj
        rw [readProjected_getD _ _ _ _ _ (by omega)]
        rw [Nat.zero_add]
        by_cases hjk : j = t.key
        · subst hjk
          rw [getD_set_self _ _ _ _ (by rw [List.length_replicate]; omega)]
          rw [getD_set_self _ _ _ _ (by rw [List.length_replicate]; omega)]
          simp only [ne_eq, one_ne_zero, not_false_eq_true, if_true]
          unfold Table.read_column
          dsimp only
          rw [updateCols_read_set cols locs t.base_page t.tail_page t.key k'
            (by omega) hck (by omega) (by omega) (by omega)
            (fun c hc => hbwf c hc) hposj.1 hposj.2]
          rw [wrap64_eq_of_range k' hrange.1 hrange.2]
        · rw [getD_set_ne _ _ _ _ _ (fun hh => hjk hh.symm)]
          rw [getD_set_ne _ _ _ _ _ (fun hh => hjk hh.symm)]
          rw [getD_replicate _ _ _ _ (by omega)]
          rw [getD_replicate _ _ _ _ (by omega)]
          simp
    rw [hcols]

/-- Witness for C10 on `exTableA` (one record, key 5): updating the key
column to the fresh value 7 succeeds, leaves the index as it was, makes a
select on 7 miss, and a select on 5 returns the record with key-column 7. -/
theorem update_key_rewrite_not_indexed_witness :
    idxLocate exTableA.index 5 = some 1 ∧
    idxLocate exTableA.index 7 = none ∧
    (Query.update exTableA 5 [some 7, none]).1 = true ∧
    (Query.update exTableA 5 [some 7, none]).2.index = exTableA.index ∧
    Query.select (Query.update exTableA 5 [some 7, none]).2 7 exTableA.key
      (List.replicate exTableA.num_columns 1) = [] ∧
    Query.select (Query.update exTableA 5 [some 7, none]).2 5 exTableA.key
        ((List.replicate exTableA.num_columns 0).set exTableA.key 1) =
      [⟨1, 5,
        (List.replicate exTableA.num_columns (none : Option Int)).set
          exTableA.key (some 7)⟩] := by
  have h := update_key_rewrite_not_indexed exTableA 5 7 [some 7, none] 1
    [(0, 0), (0, 0)] (by decide) (by decide) (by decide) (by decide)
    (by decide) (by decide) (by decide) (by decide)
  exact ⟨by decide, by decide, h.1, h.2.1, h.2.2.1, h.2.2.2⟩

end UpdateTheorems

section TransactionTheorems

/-- C2: evaluation of the code at the failing input.  The transaction of
`exRunC` (table with key column 1, record [10, 7]; a successful update of
key 7 to [99, 7] followed by an update of the unknown key 8) aborts, and its
abort leaves the page directory unchanged but does not restore the
base-page contents: the updated record's column 0 still reads 99, not its
pre-transaction value 10, because the rollback snapshot was taken by a
select on column 0 instead of the key column and therefore failed. -/
theorem abort_fails_to_restore_base :
    exRunC.1 = false ∧
    exRunC.2.1.page_directory = exTableC.page_directory ∧
    exTableC.read_column 0 0 0 = 10 ∧
    exRunC.2.1.read_column 0 0 0 = 99 := by
  decide

theorem acquire_shared_fail_snd (l : Lock) (tid : Nat)
    (h : (l.acquire_shared tid).1 = false) : (l.acquire_shared tid).2 = l := by
  unfold Lock.acquire_shared at h ⊢
  by_cases hc : l.can_grant_shared tid
  · rw [if_pos hc] at h
    exact absurd h (by simp)
  · rw [if_neg hc]

theorem acquire_exclusive_fail_snd (l : Lock) (tid : Nat)
    (h : (l.acquire_exclusive tid).1 = false) : (l.acquire_exclusive tid).2 = l := by
  unfold Lock.acquire_exclusive at h ⊢
  by_cases hc : l.can_grant_exclusive tid
  · rw [if_pos hc] at h
    exact absurd h (by simp)
  · rw [if_neg hc]

theorem dget_none_countP_zero {α : Type} (d : List (Nat × α)) (k : Nat)
    (h : dget d k = none) : d.countP (fun e => e.1 = k) = 0 := by
  induction d with
  | nil => rfl
  | cons e rest ih =>
      obtain ⟨k0, v0⟩ := e
      unfold dget at h
      by_cases hk : k0 = k
      · rw [if_pos hk] at h
        exact Option.noConfusion h
      · rw [if_neg hk] at h
        rw [List.countP_cons]
        have hif : (if (decide (k0 = k)) = true then 1 else 0) = 0 := by simp [hk]
        rw [hif, ih h]

theorem countP_zero_dget_none {α : Type} (d : List (Nat × α)) (k : Nat)
    (h : d.countP (fun e => e.1 = k) = 0) : dget d k = none := by
  induction d with
  | nil => rfl
  | cons e rest ih =>
      obtain ⟨k0, v0⟩ := e
      rw [List.countP_cons] at h
      unfold dget
      by_cases hk : k0 = k
      · have hif : (if (decide (k0 = k)) = true then 1 else 0) = 1 := by simp [hk]
        rw [hif] at h
        omega
      · rw [if_neg hk]
        refine ih ?_
        have hif : (if (decide (k0 = k)) = true then 1 else 0) = 0 := by simp [hk]
        rw [hif] at h
        omega

theorem derase_dget_self {α : Type} (d : List (Nat × α)) (k : Nat)
    (h : d.countP (fun e => e.1 = k) ≤ 1) : dget (derase d k) k = none := by
  induction d with
  | nil => rfl
  | cons e rest ih =>
      obtain ⟨k0, v0⟩ := e
      rw [List.countP_cons] at h
      unfold derase
      by_cases hk : k0 = k
      · rw [if_pos hk]
        have hif : (if (decide (k0 = k)) = true then 1 else 0) = 1 := by simp [hk]
        rw [hif] at h
        exact countP_zero_dget_none rest k (by omega)
      · rw [if_neg hk]
        unfold dget
        rw [if_neg hk]
        refine ih ?_
        have hif : (if (decide (k0 = k)) = true then 1 else 0) = 0 := by simp [hk]
        rw [hif] at h
        omega

theorem countP_dset_le_one {α : Type} (d : List (Nat × α)) (k : Nat) (v : α)
    (h : d.countP (fun e => e.1 = k) ≤ 1) :
    (dset d k v).countP (fun e => e.1 = k) ≤ 1 := by
  induction d with
  | nil => simp [dset, List.countP_cons]
  | cons e rest ih =>
      obtain ⟨k0, v0⟩ := e
      rw [List.countP_cons] at h
      unfold dset
      by_cases hk : k0 = k
      · rw [if_pos hk]
        rw [List.countP_cons]
        have hif : (if (decide (k0 = k)) = true then 1 else 0) = 1 := by simp [hk]
        have hifk : (if (decide (k = k)) = true then 1 else 0) = 1 := by simp
        rw [hif] at h
        rw [hifk]
        omega
      · rw [if_neg hk]
        rw [List.countP_cons]
        have hif : (if (decide (k0 = k)) = true then 1 else 0) = 0 := by simp [hk]
        rw [hif] at h ⊢
        have := ih (by omega)
        omega

theorem map_fst_filter_mem {α β : Type} [DecidableEq α]
    (es : List (α × β)) (a r : α) (ha : a ∈ es.map Prod.fst) (hne : a ≠ r) :
    a ∈ (es.filter (fun e => e.1 ≠ r)).map Prod.fst := by
  obtain ⟨e, he, hea⟩ := List.mem_map.mp ha
  refine List.mem_map.mpr ⟨e, ?_, hea⟩
  refine List.mem_filter.mpr ⟨he, ?_⟩
  simp only [ne_eq, decide_not]
  simp [hea ▸ hne]

theorem acquire_shared_txInv (lm : LockManager) (tid : Nat) (rid : RecordId)
    (h : txInv lm tid) : txInv (lm.acquire_shared tid rid).2 tid := by
  unfold LockManager.acquire_shared
  dsimp only
  by_cases hres : (((dget lm.locks rid).getD Lock.new).acquire_shared tid).1
  · rw [if_pos hres]
    constructor
    · intro p hp hold
      unfold ledgerRids
      dsimp only
      rw [dget_dset_self]
      simp only [Option.getD_some, List.map_append]
      rcases mem_dset _ _ _ _ hp with hq | hq
      · subst hq
        apply List.mem_append_right
        simp
      · apply List.mem_append_left
        exact h.1 p hq hold
    · dsimp only
      exact countP_dset_le_one _ _ _ h.2
  · rw [if_neg hres]
    have hsnd := acquire_shared_fail_snd _ tid (by simpa using hres)
    constructor
    · intro p hp hold
      unfold ledgerRids
      dsimp only
      rcases mem_dset _ _ _ _ hp with hq | hq
      · cases hdg : dget lm.locks rid with
        | some l0 =>
            have hpl : p = (rid, l0) := by
              rw [hq, hsnd, hdg]
              rfl
            have hmem : p ∈ lm.locks := by
              rw [hpl]
              exact dget_mem _ _ _ hdg
            exact h.1 p hmem hold
        | none =>
            have hpl : p = (rid, Lock.new) := by
              rw [hq, hsnd, hdg]
              rfl
            rw [hpl] at hold
            unfold Lock.new at hold
            simp at hold
      · exact h.1 p hq hold
    · exact h.2

theorem acquire_exclusive_txInv (lm : LockManager) (tid : Nat) (rid : RecordId)
    (h : txInv lm tid) : txInv (lm.acquire_exclusive tid rid).2 tid := by
  unfold LockManager.acquire_exclusive
  dsimp only
  by_cases hres : (((dget lm.locks rid).getD Lock.new).acquire_exclusive tid).1
  · rw [if_pos hres]
    constructor
    · intro p hp hold
      unfold ledgerRids
      dsimp only
      rw [dget_dset_self]
      simp only [Option.getD_some, List.map_append]
      rcases mem_dset _ _ _ _ hp with hq | hq
      · subst hq
        apply List.mem_append_right
        simp
      · by_cases hpr : p.1 = rid
        · apply List.mem_append_right
          simp [hpr]
        · apply List.mem_append_left
          exact map_fst_filter_mem _ _ _ (h.1 p hq hold) hpr
    · dsimp only
      exact countP_dset_le_one _ _ _ h.2
  · rw [if_neg hres]
    have hsnd := acquire_exclusive_fail_snd _ tid (by simpa using hres)
    constructor
    · intro p hp hold
      unfold ledgerRids
      dsimp only
      rcases mem_dset _ _ _ _ hp with hq | hq
      · cases hdg : dget lm.locks rid with
        | some l0 =>
            have hpl : p = (rid, l0) := by
              rw [hq, hsnd, hdg]
              rfl
            have hmem : p ∈ lm.locks := by
              rw [hpl]
              exact dget_mem _ _ _ hdg
            exact h.1 p hmem hold
        | none =>
            have hpl : p = (rid, Lock.new) := by
              rw [hq, hsnd, hdg]
              rfl
            rw [hpl] at hold
            unfold Lock.new at hold
            simp at hold
      · exact h.1 p hq hold
    · exact h.2

theorem release_all_tidFree (lm : LockManager) (tid : Nat)
    (h : txInv lm tid) : tidFree (lm.release_all tid) tid := by
  unfold LockManager.release_all
  cases hdg : dget lm.transaction_locks tid with
  | none =>
      constructor
      · exact hdg
      · intro p hp
        constructor
        · intro hold
          have := h.1 p hp (Or.inl hold)
          unfold ledgerRids at this
          rw [hdg] at this
          simp at this
        · intro hold
          have := h.1 p hp (Or.inr hold)
          unfold ledgerRids at this
          rw [hdg] at this
          simp at this
  | some entries =>
      constructor
      · dsimp only
        exact derase_dget_self _ _ h.2
      · intro p hp
        dsimp only at hp
        obtain ⟨q, hq, hpq⟩ := List.mem_map.mp hp
        by_cases hqr : q.1 ∈ entries.map Prod.fst
        · rw [if_pos hqr] at hpq
          rw [← hpq]
          constructor
          · simp [Lock.release]
          · unfold Lock.release
            dsimp only
            by_cases hex : q.2.exclusive_holder = some tid
            · simp [hex]
            · simp only [hex, if_false]
              exact hex
        · rw [if_neg hqr] at hpq
          subst hpq
          constructor
          · intro hold
            apply hqr
            have := h.1 q hq (Or.inl hold)
            unfold ledgerRids at this
            rw [hdg] at this
            simpa using this
          · intro hold
            apply hqr
            have := h.1 q hq (Or.inr hold)
            unfold ledgerRids at this
            rw [hdg] at this
            simpa using this

theorem acquireLocksFor_txInv (lm : LockManager) (tid : Nat) (t : Table)
    (op : QOp) (h : txInv lm tid) : txInv (acquireLocksFor lm tid t op).2 tid := by
  cases op with
  | insertQ cols => exact acquire_exclusive_txInv lm tid _ h
  | updateQ pk cols => exact acquire_exclusive_txInv lm tid _ h
  | deleteQ pk => exact acquire_exclusive_txInv lm tid _ h
  | selectQ sk ski proj => exact acquire_shared_txInv lm tid _ h
  | selectVersionQ sk ski proj rv => exact acquire_shared_txInv lm tid _ h

theorem runTx_txInv (tid : Nat) (ops : List QOp) (t : Table)
    (lm : LockManager) (executed : List OpInfo) (h : txInv lm tid) :
    tidFree (runTx tid ops t lm executed).2.2 tid := by
  induction ops generalizing t lm executed with
  | nil => exact release_all_tidFree lm tid h
  | cons op rest ih =>
      unfold runTx
      dsimp only
      have hinv := acquireLocksFor_txInv lm tid t op h
      by_cases hacq : (acquireLocksFor lm tid t op).1
      · rw [if_pos hacq]
        by_cases hfail : opFailed (execOp t op).1
        · rw [if_pos hfail]
          exact release_all_tidFree _ tid hinv
        · rw [if_neg hfail]
          exact ih _ _ _ hinv
      · rw [if_neg hacq]
        exact release_all_tidFree _ tid hinv

/-- C7: Strict 2PL release at end of transaction.  For any transaction id
that holds no lock when its run starts, when `run` returns — by commit or
by abort, after any of its operations refuses a lock or fails — the
transaction again holds no shared or exclusive lock on any record and the
lock manager's ledger has no entry for it. -/
theorem strict_2pl_releases_all (tid : Nat) (ops : List QOp) (t : Table)
    (lm : LockManager) (h : tidFree lm tid) :
    tidFree (runTx tid ops t lm []).2.2 tid := by
  refine runTx_txInv tid ops t lm [] ⟨?_, ?_⟩
  · intro p hp hold
    rcases hold with hold | hold
    · exact absurd hold (h.2 p hp).1
    · exact absurd hold (h.2 p hp).2
  · rw [dget_none_countP_zero _ _ h.1]
    omega

/-- Witness for C7: a fresh lock manager is lock-free for transaction 0, and
after running a one-insert transaction the manager is again lock-free for
it. -/
theorem strict_2pl_releases_all_witness :
    tidFree LockManager.new 0 ∧
    tidFree (runTx 0 [QOp.insertQ [1, 2]] (Table.new "t" 2 0)
      LockManager.new []).2.2 0 :=
  ⟨by decide,
    strict_2pl_releases_all 0 [QOp.insertQ [1, 2]] (Table.new "t" 2 0)
      LockManager.new (by decide)⟩

end TransactionTheorems


end LStore
